import Mathlib

/-!
# Verification of the `tui_movie.py` rendering core

Shallow embedding of the rendering pipeline of `tui_movie.py`:
the high-resolution pixel canvas, the drawing primitives
(`draw_rect`, `draw_ellipse`, `draw_line`), the scene composer
(`build_frame` up to the downsampling call, here `compose_scene`),
the downsampler (`braille_from_pixels`) and the serializer
(`render_frame`).

Modelling conventions:
* Python machine floats are modelled as exact rationals (`ℚ`); `int()`
  truncation toward zero is `pyInt`.  `math.sin` is not algebraic, so the
  map `frame ↦ sin(frame / 8)` is passed to the composer as an explicit
  function parameter `s : ℕ → ℚ`; it is a fixed pure function, so this
  keeps the pipeline a function of its inputs.
* The three per-frame 2D Python lists (`bg_color_map`, `fg_mask`,
  `fg_color`) are modelled as total functions `ℤ → ℤ → _` bundled with
  the explicit dimensions `hiW`/`hiH` (in Python those are
  `len(row)`/`len(array)`); every read and write the program performs is
  guarded to the rectangle `[0,hiW) × [0,hiH)`, exactly as in the source.
* The `while True` loop of `draw_line` is modelled with explicit fuel
  `|x1-x0| + |y1-y0| + 1`; exhausting the fuel yields `none`.  We prove
  that this fuel always suffices (the Bresenham loop terminates), so the
  embedded `draw_line` is total in the same sense as the Python loop.
-/

namespace TuiMovie

/-- RGB color triple, Python `tuple[int, int, int]`. -/
structure RGB where
  r : ℤ
  g : ℤ
  b : ℤ
deriving DecidableEq

/-- The frozen `Cell` dataclass: glyph character, optional foreground,
optional background. -/
structure Cell where
  ch : Char
  fg : Option RGB := none
  bg : Option RGB := none
deriving DecidableEq

/-- `ESC = "\x1b"`. -/
def ESC : String := "\x1b"

/-- `fg_color(rgb)`: truecolor foreground escape `ESC[38;2;R;G;Bm`. -/
def fg_color (c : RGB) : String :=
  let r := c.r
  let g := c.g
  let b := c.b
  s!"{ESC}[38;2;{r};{g};{b}m"

/-- `bg_color(rgb)`: truecolor background escape `ESC[48;2;R;G;Bm`. -/
def bg_color (c : RGB) : String :=
  let r := c.r
  let g := c.g
  let b := c.b
  s!"{ESC}[48;2;{r};{g};{b}m"

/-- `reset_colors()`: the full color reset `ESC[0m`. -/
def reset_colors : String := s!"{ESC}[0m"

/-- The default-foreground escape `ESC[39m` emitted by `render_frame`
when a cell's foreground is absent. -/
def default_fg : String := s!"{ESC}[39m"

/-- Python `int()` applied to a (rationally modelled) float: truncation
toward zero. -/
def pyInt (q : ℚ) : ℤ := if q < 0 then -⌊-q⌋ else ⌊q⌋

/-- `lerp(a, b, t) = int(a + (b - a) * t)`. -/
def lerp (a b : ℤ) (t : ℚ) : ℤ := pyInt ((a : ℚ) + ((b : ℚ) - (a : ℚ)) * t)

/-- `gradient_color(y, height)`: vertical gradient from `(15, 20, 35)`
at the top to `(5, 10, 18)` at the bottom, `t = y / max(1, height - 1)`. -/
def gradient_color (y height : ℤ) : RGB :=
  let top : RGB := ⟨15, 20, 35⟩
  let bottom : RGB := ⟨5, 10, 18⟩
  let t : ℚ := (y : ℚ) / ((max 1 (height - 1) : ℤ) : ℚ)
  ⟨lerp top.r bottom.r t, lerp top.g bottom.g t, lerp top.b bottom.b t⟩

/-- The per-frame canvas: the three same-shaped arrays `bg_color_map`,
`fg_mask`, `fg_color` of `build_frame`, as total functions over `ℤ`
indices together with their dimensions (`hiH = len(fg_mask)`,
`hiW = len(fg_mask[0])`). -/
structure PixBuf where
  hiW : ℕ
  hiH : ℕ
  bg : ℤ → ℤ → RGB
  mask : ℤ → ℤ → Bool
  fg : ℤ → ℤ → Option RGB

/-- The point write `fg_mask[y][x] = True; fg_color[y][x] = color`
shared by all three primitives. -/
def writeFg (p : PixBuf) (x y : ℤ) (color : RGB) : PixBuf :=
  { p with
    mask := fun j i => if j = y ∧ i = x then true else p.mask j i
    fg := fun j i => if j = y ∧ i = x then some color else p.fg j i }

/-- The point write `bg_color_map[y][x] = color` used by the ground
band of `build_frame`. -/
def writeBg (p : PixBuf) (x y : ℤ) (color : RGB) : PixBuf :=
  { p with bg := fun j i => if j = y ∧ i = x then color else p.bg j i }

/-- Python `range(a, b)` over integers. -/
def intRange (a b : ℤ) : List ℤ :=
  (List.range (b - a).toNat).map (fun k : ℕ => a + (k : ℤ))

/-- `draw_rect(fg_mask, fg_color, x0, y0, x1, y1, color)`: two nested
loops over `range(max(0, y0), min(height, y1))` and
`range(max(0, x0), min(width, x1))`, setting mask and color. -/
def draw_rect (p : PixBuf) (x0 y0 x1 y1 : ℤ) (color : RGB) : PixBuf :=
  (intRange (max 0 y0) (min (p.hiH : ℤ) y1)).foldl
    (fun q y =>
      (intRange (max 0 x0) (min (p.hiW : ℤ) x1)).foldl
        (fun q2 x => writeFg q2 x y color) q)
    p

/-- `draw_ellipse(fg_mask, fg_color, cx, cy, rx, ry, color)`: loops over
the bounding box, skips out-of-bounds rows/columns, and lights a pixel
iff `((x-cx)/max(1,rx))² + ((y-cy)/max(1,ry))² ≤ 1` (float arithmetic
modelled as exact rationals). -/
def draw_ellipse (p : PixBuf) (cx cy rx ry : ℤ) (color : RGB) : PixBuf :=
  (intRange (cy - ry) (cy + ry + 1)).foldl
    (fun q y =>
      if 0 ≤ y ∧ y < (q.hiH : ℤ) then
        let dy : ℚ := ((y - cy : ℤ) : ℚ) / ((max 1 ry : ℤ) : ℚ)
        (intRange (cx - rx) (cx + rx + 1)).foldl
          (fun q2 x =>
            if 0 ≤ x ∧ x < (q2.hiW : ℤ) then
              let dx : ℚ := ((x - cx : ℤ) : ℚ) / ((max 1 rx : ℤ) : ℚ)
              if dx * dx + dy * dy ≤ 1 then writeFg q2 x y color else q2
            else q2)
          q
      else q)
    p

/-- The body of `draw_line`'s `while True` loop, with explicit fuel.
One application of `draw_line_go` with positive fuel is one iteration:
plot the current pixel if in bounds, stop when `(x, y) = (x1, y1)`,
otherwise do the error-accumulator steps (`e2 = 2*err`; if `e2 >= dy`
advance `x`; if `e2 <= dx` advance `y`) and continue.  Exhausted fuel
gives `none`. -/
def draw_line_go (x1 y1 sx sy dx dy : ℤ) (color : RGB) :
    ℕ → PixBuf → ℤ → ℤ → ℤ → Option PixBuf
  | 0, _, _, _, _ => none
  | fuel + 1, p, x, y, err =>
    let p' := if 0 ≤ x ∧ x < (p.hiW : ℤ) ∧ 0 ≤ y ∧ y < (p.hiH : ℤ)
              then writeFg p x y color else p
    if x = x1 ∧ y = y1 then some p'
    else
      let e2 := 2 * err
      let err1 := if dy ≤ e2 then err + dy else err
      let xn := if dy ≤ e2 then x + sx else x
      let err2 := if e2 ≤ dx then err1 + dx else err1
      let yn := if e2 ≤ dx then y + sy else y
      draw_line_go x1 y1 sx sy dx dy color fuel p' xn yn err2

/-- Fuel sufficient for the Bresenham loop: one iteration per unit of
`|x1-x0| + |y1-y0|`, plus the final iteration that hits the endpoint. -/
def lineFuel (x0 y0 x1 y1 : ℤ) : ℕ := (x1 - x0).natAbs + (y1 - y0).natAbs + 1

/-- `draw_line(fg_mask, fg_color, x0, y0, x1, y1, color)`: integer
Bresenham from `(x0, y0)` to `(x1, y1)` with `dx = |x1-x0|`,
`dy = -|y1-y0|`, `sx = ±1`, `sy = ±1`, `err = dx + dy`. -/
def draw_line (p : PixBuf) (x0 y0 x1 y1 : ℤ) (color : RGB) : Option PixBuf :=
  let dx := |x1 - x0|
  let dy := -|y1 - y0|
  let sx : ℤ := if x0 < x1 then 1 else -1
  let sy : ℤ := if y0 < y1 then 1 else -1
  draw_line_go x1 y1 sx sy dx dy color (lineFuel x0 y0 x1 y1) p x0 y0 (dx + dy)

/-- `draw_samurai(...)`: helmet ellipse, highlight band, torso, belt,
two legs, two feet (rectangles), and a two-line sword offset by
`facing`. -/
def draw_samurai (p : PixBuf) (center_x base_y scale : ℤ)
    (color highlight : RGB) (facing : ℤ) : Option PixBuf :=
  let p := draw_ellipse p center_x (base_y - 12 * scale) (3 * scale) (2 * scale) color
  let p := draw_rect p (center_x - 2 * scale) (base_y - 11 * scale)
    (center_x + 2 * scale) (base_y - 8 * scale) highlight
  let p := draw_rect p (center_x - 4 * scale) (base_y - 8 * scale)
    (center_x + 4 * scale) (base_y - 2 * scale) color
  let p := draw_rect p (center_x - 6 * scale) (base_y - 2 * scale)
    (center_x + 6 * scale) (base_y + 2 * scale) color
  let p := draw_rect p (center_x - 5 * scale) (base_y + 2 * scale)
    (center_x - 1 * scale) (base_y + 8 * scale) color
  let p := draw_rect p (center_x + 1 * scale) (base_y + 2 * scale)
    (center_x + 5 * scale) (base_y + 8 * scale) color
  let p := draw_rect p (center_x - 2 * scale) (base_y + 8 * scale)
    (center_x - 1 * scale) (base_y + 12 * scale) color
  let p := draw_rect p (center_x + 1 * scale) (base_y + 8 * scale)
    (center_x + 2 * scale) (base_y + 12 * scale) color
  let sword_x0 := center_x + facing * 7 * scale
  let sword_y0 := base_y - 4 * scale
  let sword_x1 := sword_x0 + facing * 8 * scale
  let sword_y1 := sword_y0 - 6 * scale
  (draw_line p sword_x0 sword_y0 sword_x1 sword_y1 ⟨240, 220, 140⟩).bind
    (fun p9 => draw_line p9 sword_x0 (sword_y0 + 1) sword_x1 (sword_y1 + 1) ⟨200, 180, 120⟩)

/-- The shimmer assignment of `build_frame`:
`shimmer = int(40 + 30 * math.sin(frame / 8))`, where `s frame` stands
for `math.sin(frame / 8)`. -/
def shimmer (s : ℕ → ℚ) (frame : ℕ) : ℤ := pyInt (40 + 30 * s frame)

/-- The `(210, 190, shimmer)` color argument of the second (right,
`facing = -1`) `draw_samurai` call in `build_frame`. -/
def right_samurai_color (s : ℕ → ℚ) (frame : ℕ) : RGB := ⟨210, 190, shimmer s frame⟩

/-- The layered base canvas of `build_frame(width, height, frame)`:
the fresh gradient canvas, the darker ground band (bottom rows from
`int(hi_height * 0.72)` down), and the diagonal rain streaks (pixel
column runs lit when `(x*11 + y*7 + frame*6) % 29 == 0`, `y` even). -/
def scene_base (width height frame : ℕ) : PixBuf :=
  let hiW := width * 2
  let hiH := height * 4
  let rain_speed := 6
  let p0 : PixBuf :=
    { hiW := hiW, hiH := hiH
      bg := fun y _x => gradient_color y (hiH : ℤ)
      mask := fun _ _ => false
      fg := fun _ _ => none }
  let ground_line := pyInt ((hiH : ℚ) * (72 / 100))
  let p1 := (intRange ground_line (hiH : ℤ)).foldl
    (fun q y => (intRange 0 (hiW : ℤ)).foldl
      (fun q2 x => writeBg q2 x y ⟨8, 10, 14⟩) q) p0
  (List.range hiW).foldl
    (fun q x => ((List.range hiH).filter (fun y => y % 2 = 0)).foldl
      (fun q2 y =>
        if (x * 11 + y * 7 + frame * rain_speed) % 29 = 0 then
          (List.range 3).foldl
            (fun q3 streak =>
              let yy := y + streak
              if 0 ≤ (yy : ℤ) ∧ (yy : ℤ) < (hiH : ℤ)
              then writeFg q3 (x : ℤ) (yy : ℤ) ⟨120, 170, 220⟩
              else q3)
            q2
        else q2)
      q)
    p1

/-- The figure-drawing tail of the scene composition (the two
`draw_samurai` calls and the slash `draw_line`) applied to the layered
base canvas `scene_base`.  Together with `scene_base` this is the
canvas-construction part of `build_frame` (lines 230–300). -/
def compose_scene (s : ℕ → ℚ) (width height frame : ℕ) : Option PixBuf :=
  let hiW := width * 2
  let hiH := height * 4
  let p2 := scene_base width height frame
  let left_center := pyInt ((hiW : ℚ) * (3 / 10))
  let right_center := pyInt ((hiW : ℚ) * (7 / 10))
  let base_y := pyInt ((hiH : ℚ) * (62 / 100))
  let scale : ℤ := (max 1 (hiW / 220) : ℕ)
  (draw_samurai p2 left_center base_y scale ⟨200, 205, 215⟩ ⟨240, 230, 200⟩ 1).bind
    (fun p3 =>
      (draw_samurai p3 right_center base_y scale
        (right_samurai_color s frame) ⟨240, 220, 200⟩ (-1)).bind
        (fun p4 =>
          draw_line p4 (pyInt ((hiW : ℚ) * (46 / 100))) (pyInt ((hiH : ℚ) * (52 / 100)))
            (pyInt ((hiW : ℚ) * (54 / 100))) (pyInt ((hiH : ℚ) * (46 / 100)))
            ⟨255, 235, 160⟩))

/-- The `dot_map` table of `braille_from_pixels`: sub-position
`(dx, dy)` of a 2×4 block, and its braille bit index. -/
def dot_map : List (ℕ × ℕ × ℕ) :=
  [(0, 0, 0), (0, 1, 1), (0, 2, 2), (1, 0, 3),
   (1, 1, 4), (1, 2, 5), (0, 3, 6), (1, 3, 7)]

/-- Accumulator of the inner loop of `braille_from_pixels`: the bit
pattern, foreground/background channel sums, and sample counts. -/
structure DotAcc where
  bits : ℕ
  fgAcc : RGB
  fgCount : ℤ
  bgAcc : RGB
  bgCount : ℤ
deriving DecidableEq

/-- One step of the `for dx, dy, bit in dot_map` loop of
`braille_from_pixels`: skip out-of-bounds sub-positions, accumulate the
background always, and on a lit mask set the bit and accumulate the
foreground color (falling back to the background color when
`fg_color[py][px]` is `None`). -/
def dotStep (p : PixBuf) (x y : ℕ) (acc : DotAcc) (d : ℕ × ℕ × ℕ) : DotAcc :=
  let px := x * 2 + d.1
  let py := y * 4 + d.2.1
  if p.hiH ≤ py ∨ p.hiW ≤ px then acc
  else
    let bgc := p.bg (py : ℤ) (px : ℤ)
    let acc1 : DotAcc :=
      { acc with
        bgAcc := ⟨acc.bgAcc.r + bgc.r, acc.bgAcc.g + bgc.g, acc.bgAcc.b + bgc.b⟩
        bgCount := acc.bgCount + 1 }
    if p.mask (py : ℤ) (px : ℤ) then
      let color := (p.fg (py : ℤ) (px : ℤ)).getD bgc
      { acc1 with
        bits := acc1.bits ||| (1 <<< d.2.2)
        fgAcc := ⟨acc1.fgAcc.r + color.r, acc1.fgAcc.g + color.g, acc1.fgAcc.b + color.b⟩
        fgCount := acc1.fgCount + 1 }
    else acc1

/-- The body of the two outer loops of `braille_from_pixels`: the cell
produced for output coordinates `(x, y)`.  Python `//` is floor
division, `Int.fdiv`. -/
def cell_at (p : PixBuf) (x y : ℕ) : Cell :=
  let acc := dot_map.foldl (dotStep p x y) ⟨0, ⟨0, 0, 0⟩, 0, ⟨0, 0, 0⟩, 0⟩
  let bgv : RGB :=
    if acc.bgCount ≠ 0 then
      ⟨acc.bgAcc.r.fdiv acc.bgCount, acc.bgAcc.g.fdiv acc.bgCount,
       acc.bgAcc.b.fdiv acc.bgCount⟩
    else ⟨0, 0, 0⟩
  if acc.fgCount ≠ 0 then
    { ch := Char.ofNat (0x2800 + acc.bits)
      fg := some ⟨acc.fgAcc.r.fdiv acc.fgCount, acc.fgAcc.g.fdiv acc.fgCount,
                  acc.fgAcc.b.fdiv acc.fgCount⟩
      bg := some bgv }
  else { ch := ' ', fg := none, bg := some bgv }

/-- `braille_from_pixels(bg_color_map, fg_mask, fg_color, width,
height)`: the `height × width` grid of downsampled cells, row-major. -/
def braille_from_pixels (p : PixBuf) (width height : ℕ) : List (List Cell) :=
  (List.range height).map (fun y => (List.range width).map (fun x => cell_at p x y))

/-- `build_frame(width, height, frame)`: compose the scene and
downsample it.  `none` would mean a `draw_line` loop failed to reach its
endpoint within its fuel; we prove this never happens. -/
def build_frame (s : ℕ → ℚ) (width height frame : ℕ) :
    Option (List (List Cell)) :=
  (compose_scene s width height frame).map
    (fun p => braille_from_pixels p width height)

/-- The `for cell in row` loop of `render_frame`: the `line_parts` list
accumulated for one row, starting from the given `last_fg`/`last_bg`
state.  A background change emits `bg_color` (or `reset_colors` for an
absent background), a foreground change emits `fg_color` (or `ESC[39m`),
then the glyph itself is appended. -/
def line_parts : Option RGB → Option RGB → List Cell → List String
  | _, _, [] => []
  | lastFg, lastBg, c :: cs =>
    (if c.bg = lastBg then [] else
      [match c.bg with
       | none => reset_colors
       | some v => bg_color v]) ++
    (if c.fg = lastFg then [] else
      [match c.fg with
       | none => default_fg
       | some v => fg_color v]) ++
    [String.singleton c.ch] ++ line_parts c.fg c.bg cs

/-- One output line of `render_frame`: the row's parts followed by the
trailing `reset_colors()`.  In the source `last_fg`/`last_bg` are reset
to `None` after every row (and start as `None`), so every row starts
from the `(none, none)` state. -/
def render_row (row : List Cell) : String :=
  String.join (line_parts none none row ++ [reset_colors])

/-- `render_frame(buffer)`: one line per row, joined with `"\n"`. -/
def render_frame (buffer : List (List Cell)) : String :=
  String.intercalate "\n" (buffer.map render_row)

/-- The whole pipeline `render_frame(build_frame(width, height, frame))`
as called by the main loop; `s frame` models `math.sin(frame / 8)`. -/
def render_pipeline (s : ℕ → ℚ) (width height frame : ℕ) : Option String :=
  (build_frame s width height frame).map render_frame

/-- Pointwise agreement of two canvases at a pixel: mask, foreground
and background are all unchanged there. -/
def PixEq (p q : PixBuf) (j i : ℤ) : Prop :=
  q.mask j i = p.mask j i ∧ q.fg j i = p.fg j i ∧ q.bg j i = p.bg j i

/-- A coordinate `(row j, column i)` outside the canvas rectangle
`[0, hiW) × [0, hiH)`. -/
def OutOfBounds (p : PixBuf) (j i : ℤ) : Prop :=
  i < 0 ∨ (p.hiW : ℤ) ≤ i ∨ j < 0 ∨ (p.hiH : ℤ) ≤ j

/-- Canvas invariant: every pixel whose mask is lit has a concrete
(non-absent) foreground color. -/
def MaskFgOk (p : PixBuf) : Prop :=
  ∀ j i : ℤ, p.mask j i = true → (p.fg j i).isSome = true

/-- A small all-clear canvas (uniform background, no lit pixels) used
as a concrete input by the witnesses. -/
def testBuf (w h : ℕ) : PixBuf :=
  ⟨w, h, fun _ _ => ⟨10, 20, 30⟩, fun _ _ => false, fun _ _ => none⟩

/-- Every channel of a color lies in the 8-bit range `0 … 255`. -/
def InRange (c : RGB) : Prop :=
  0 ≤ c.r ∧ c.r ≤ 255 ∧ 0 ≤ c.g ∧ c.g ≤ 255 ∧ 0 ≤ c.b ∧ c.b ≤ 255

/-- Invariant of the downsampler's accumulator: the counts are
non-negative and each channel sum is bounded by `255 *` its count. -/
def AccOk (acc : DotAcc) : Prop :=
  0 ≤ acc.bgCount ∧ 0 ≤ acc.fgCount ∧
  0 ≤ acc.bgAcc.r ∧ acc.bgAcc.r ≤ 255 * acc.bgCount ∧
  0 ≤ acc.bgAcc.g ∧ acc.bgAcc.g ≤ 255 * acc.bgCount ∧
  0 ≤ acc.bgAcc.b ∧ acc.bgAcc.b ≤ 255 * acc.bgCount ∧
  0 ≤ acc.fgAcc.r ∧ acc.fgAcc.r ≤ 255 * acc.fgCount ∧
  0 ≤ acc.fgAcc.g ∧ acc.fgAcc.g ≤ 255 * acc.fgCount ∧
  0 ≤ acc.fgAcc.b ∧ acc.fgAcc.b ≤ 255 * acc.fgCount

/-- The default cell used with `List.getD` when indexing a frame. -/
def blankCell : Cell := ⟨' ', none, none⟩

/-- A 4×4 canvas (two cells wide, one cell tall at the 2×4 block size)
whose only lit pixel is `(0, 0)` with foreground `(1, 2, 3)`; concrete
witness input for the downsampler claims. -/
def c2Buf : PixBuf :=
  ⟨4, 4, fun _ _ => ⟨10, 20, 30⟩, fun j i => decide (j = 0 ∧ i = 0),
   fun j i => if j = 0 ∧ i = 0 then some ⟨1, 2, 3⟩ else none⟩

/-! ## Helper lemmas -/

/-- A property preserved by every step of a fold is preserved by the
fold. -/
theorem foldl_preserves {α β : Type} (P : β → Prop) (f : β → α → β) :
    ∀ (l : List α) (b : β), (∀ b2, ∀ a ∈ l, P b2 → P (f b2 a)) → P b → P (l.foldl f b)
  | [], _, _, hb => hb
  | a :: l, b, hf, hb =>
    foldl_preserves P f l (f b a)
      (fun b2 a2 ha2 => hf b2 a2 (List.mem_cons_of_mem a ha2))
      (hf b a (List.mem_cons_self a l) hb)

/-- Membership in the embedded Python `range`. -/
theorem mem_intRange {a b x : ℤ} : x ∈ intRange a b ↔ a ≤ x ∧ x < b := by
  simp only [intRange, List.mem_map, List.mem_range]
  constructor
  · rintro ⟨k, hk, rfl⟩
    omega
  · intro ⟨h1, h2⟩
    exact ⟨(x - a).toNat, by omega, by omega⟩

/-- `writeFg` keeps the canvas dimensions. -/
theorem writeFg_hiW (p : PixBuf) (x y : ℤ) (c : RGB) :
    (writeFg p x y c).hiW = p.hiW := rfl

/-- `writeFg` keeps the canvas dimensions. -/
theorem writeFg_hiH (p : PixBuf) (x y : ℤ) (c : RGB) :
    (writeFg p x y c).hiH = p.hiH := rfl

/-- `writeFg` changes no pixel other than its target. -/
theorem writeFg_untouched (p : PixBuf) (x y : ℤ) (c : RGB) (j i : ℤ)
    (h : ¬(j = y ∧ i = x)) :
    (writeFg p x y c).mask j i = p.mask j i ∧
    (writeFg p x y c).fg j i = p.fg j i ∧
    (writeFg p x y c).bg j i = p.bg j i := by
  refine ⟨?_, ?_, ?_⟩ <;> simp [writeFg, h]

/-- `writeFg` preserves the mask-implies-foreground invariant (it sets
the mask and the foreground together). -/
theorem writeFg_maskFgOk (p : PixBuf) (x y : ℤ) (c : RGB) (hp : MaskFgOk p) :
    MaskFgOk (writeFg p x y c) := by
  intro j i h
  by_cases hc : j = y ∧ i = x
  · simp [writeFg, hc]
  · simp only [writeFg, if_neg hc] at h ⊢
    exact hp j i h

/-- `writeBg` touches only the background, so it preserves the
mask-implies-foreground invariant. -/
theorem writeBg_maskFgOk (p : PixBuf) (x y : ℤ) (c : RGB) (hp : MaskFgOk p) :
    MaskFgOk (writeBg p x y c) := fun j i h => hp j i h

/-- `draw_rect` preserves the mask-implies-foreground invariant. -/
theorem draw_rect_maskFgOk (p : PixBuf) (x0 y0 x1 y1 : ℤ) (c : RGB)
    (hp : MaskFgOk p) : MaskFgOk (draw_rect p x0 y0 x1 y1 c) := by
  apply foldl_preserves MaskFgOk _ _ _ _ hp
  intro q y _ hq
  apply foldl_preserves MaskFgOk _ _ _ _ hq
  intro q2 x _ hq2
  exact writeFg_maskFgOk q2 x y c hq2

/-- `draw_ellipse` preserves the mask-implies-foreground invariant. -/
theorem draw_ellipse_maskFgOk (p : PixBuf) (cx cy rx ry : ℤ) (c : RGB)
    (hp : MaskFgOk p) : MaskFgOk (draw_ellipse p cx cy rx ry c) := by
  apply foldl_preserves MaskFgOk _ _ _ _ hp
  intro q y _ hq
  dsimp only
  split
  · apply foldl_preserves MaskFgOk _ _ _ _ hq
    intro q2 x _ hq2
    dsimp only
    split
    · split
      · exact writeFg_maskFgOk q2 x y c hq2
      · exact hq2
    · exact hq2
  · exact hq

/-- The Bresenham loop preserves the mask-implies-foreground
invariant. -/
theorem draw_line_go_maskFgOk (x1 y1 sx sy dx dy : ℤ) (c : RGB) :
    ∀ (fuel : ℕ) (p : PixBuf) (x y err : ℤ) (q : PixBuf),
      MaskFgOk p → draw_line_go x1 y1 sx sy dx dy c fuel p x y err = some q →
      MaskFgOk q := by
  intro fuel
  induction fuel with
  | zero => intro p x y err q _ h; exact absurd h (by simp [draw_line_go])
  | succ n ih =>
    intro p x y err q hp h
    rw [draw_line_go] at h
    have hp' : MaskFgOk (if 0 ≤ x ∧ x < (p.hiW : ℤ) ∧ 0 ≤ y ∧ y < (p.hiH : ℤ)
        then writeFg p x y c else p) := by
      split
      · exact writeFg_maskFgOk p x y c hp
      · exact hp
    by_cases hdone : x = x1 ∧ y = y1
    · rw [if_pos hdone] at h
      cases h
      exact hp'
    · rw [if_neg hdone] at h
      exact ih _ _ _ _ _ hp' h

/-- `draw_line` preserves the mask-implies-foreground invariant. -/
theorem draw_line_maskFgOk (p : PixBuf) (x0 y0 x1 y1 : ℤ) (c : RGB)
    (q : PixBuf) (hp : MaskFgOk p) (h : draw_line p x0 y0 x1 y1 c = some q) :
    MaskFgOk q := by
  simp only [draw_line] at h
  exact draw_line_go_maskFgOk _ _ _ _ _ _ c _ p x0 y0 _ q hp h

/-- `draw_samurai` preserves the mask-implies-foreground invariant. -/
theorem draw_samurai_maskFgOk (p : PixBuf) (cx by2 scale : ℤ)
    (color highlight : RGB) (facing : ℤ) (q : PixBuf) (hp : MaskFgOk p)
    (h : draw_samurai p cx by2 scale color highlight facing = some q) :
    MaskFgOk q := by
  simp only [draw_samurai, Option.bind_eq_some] at h
  obtain ⟨q1, h1, h2⟩ := h
  have hq1 : MaskFgOk q1 := by
    apply draw_line_maskFgOk _ _ _ _ _ _ _ _ h1
    exact draw_rect_maskFgOk _ _ _ _ _ _
      (draw_rect_maskFgOk _ _ _ _ _ _
        (draw_rect_maskFgOk _ _ _ _ _ _
          (draw_rect_maskFgOk _ _ _ _ _ _
            (draw_rect_maskFgOk _ _ _ _ _ _
              (draw_rect_maskFgOk _ _ _ _ _ _
                (draw_rect_maskFgOk _ _ _ _ _ _
                  (draw_ellipse_maskFgOk _ _ _ _ _ _ hp)))))))
  exact draw_line_maskFgOk _ _ _ _ _ _ _ hq1 h2

/-- A row of cells all sharing the concrete colors already recorded in
the serializer state contributes only its glyph characters. -/
theorem line_parts_const (f b : RGB) :
    ∀ cs : List Cell, (∀ c ∈ cs, c.fg = some f ∧ c.bg = some b) →
      line_parts (some f) (some b) cs = cs.map (fun c => String.singleton c.ch) := by
  intro cs
  induction cs with
  | nil => intro _; rfl
  | cons c cs ih =>
    intro hall
    obtain ⟨hcf, hcb⟩ := hall c (List.mem_cons_self c cs)
    have htail : ∀ x ∈ cs, x.fg = some f ∧ x.bg = some b :=
      fun x hx => hall x (List.mem_cons_of_mem c hx)
    simp only [line_parts, hcf, hcb, if_pos rfl, List.nil_append, List.map_cons,
      List.singleton_append]
    exact congrArg _ (ih htail)

/-- Termination of the Bresenham loop: under the error-accumulator
invariant `err = dx + dy - b*dx - a*dy` (where `a`/`b` are the
remaining steps toward the endpoint in `x`/`y`), the loop reaches
`(x1, y1)` before the fuel runs out. -/
theorem draw_line_go_isSome (x1 y1 sx sy dx dy : ℤ) (c : RGB)
    (hsx : sx = 1 ∨ sx = -1) (hsy : sy = 1 ∨ sy = -1)
    (hdx : 0 ≤ dx) (hdy : dy ≤ 0) :
    ∀ (fuel : ℕ) (p : PixBuf) (x y err : ℤ),
      0 ≤ sx * (x1 - x) → sx * (x1 - x) ≤ dx →
      0 ≤ sy * (y1 - y) → sy * (y1 - y) ≤ -dy →
      err = dx + dy - (sy * (y1 - y)) * dx - (sx * (x1 - x)) * dy →
      sx * (x1 - x) + sy * (y1 - y) < (fuel : ℤ) →
      (draw_line_go x1 y1 sx sy dx dy c fuel p x y err).isSome = true := by
  have hsx2 : sx * sx = 1 := by rcases hsx with h | h <;> rw [h] <;> ring
  have hsy2 : sy * sy = 1 := by rcases hsy with h | h <;> rw [h] <;> ring
  intro fuel
  induction fuel with
  | zero =>
    intro p x y err ha0 _ hb0 _ _ hm
    exfalso
    push_cast at hm
    linarith
  | succ n ih =>
    intro p x y err ha0 had hb0 hbd hinv hm
    by_cases hdone : x = x1 ∧ y = y1
    · simp [draw_line_go, hdone]
    · have hxeq : sx * (x1 - x) = 0 → x = x1 := by
        intro h
        have h2 : x1 - x = sx * (sx * (x1 - x)) := by
          rw [← mul_assoc, hsx2, one_mul]
        rw [h, mul_zero] at h2
        omega
      have hyeq : sy * (y1 - y) = 0 → y = y1 := by
        intro h
        have h2 : y1 - y = sy * (sy * (y1 - y)) := by
          rw [← mul_assoc, hsy2, one_mul]
        rw [h, mul_zero] at h2
        omega
      have hnz : ¬(sx * (x1 - x) = 0 ∧ sy * (y1 - y) = 0) := by
        rintro ⟨h1, h2⟩
        exact hdone ⟨hxeq h1, hyeq h2⟩
      -- at least one of the two step conditions holds
      have hor : dy ≤ 2 * err ∨ 2 * err ≤ dx := by
        by_contra hno
        push_neg at hno
        linarith [hno.1, hno.2]
      -- if `x` may step, it has not yet reached `x1`
      have hxstep : dy ≤ 2 * err → 1 ≤ sx * (x1 - x) := by
        intro hc1
        by_contra hc
        push_neg at hc
        have ha : sx * (x1 - x) = 0 := le_antisymm (by linarith) ha0
        have hb1 : 1 ≤ sy * (y1 - y) :=
          lt_of_le_of_ne hb0 (fun h => hnz ⟨ha, h.symm⟩)
        have hQ : sx * (x1 - x) * dy = 0 := by rw [ha, zero_mul]
        have hbdx : dx ≤ sy * (y1 - y) * dx := by
          nlinarith [mul_nonneg (show (0 : ℤ) ≤ sy * (y1 - y) - 1 by linarith) hdx]
        have hdy1 : dy ≤ -1 := by linarith
        linarith
      -- if `y` may step, it has not yet reached `y1`
      have hystep : 2 * err ≤ dx → 1 ≤ sy * (y1 - y) := by
        intro hc2
        by_contra hc
        push_neg at hc
        have hb : sy * (y1 - y) = 0 := le_antisymm (by linarith) hb0
        have ha1 : 1 ≤ sx * (x1 - x) :=
          lt_of_le_of_ne ha0 (fun h => hnz ⟨h.symm, hb⟩)
        have hP : sy * (y1 - y) * dx = 0 := by rw [hb, zero_mul]
        have hady : sx * (x1 - x) * dy ≤ dy := by
          nlinarith [mul_nonpos_of_nonneg_of_nonpos
            (show (0 : ℤ) ≤ sx * (x1 - x) - 1 by linarith) hdy]
        linarith
      have hstepa : sx * (x1 - (x + sx)) = sx * (x1 - x) - 1 := by
        have h2 : sx * (x1 - (x + sx)) = sx * (x1 - x) - sx * sx := by ring
        rw [h2, hsx2]
      have hstepb : sy * (y1 - (y + sy)) = sy * (y1 - y) - 1 := by
        have h2 : sy * (y1 - (y + sy)) = sy * (y1 - y) - sy * sy := by ring
        rw [h2, hsy2]
      rw [draw_line_go]
      simp only [if_neg hdone]
      push_cast at hm
      by_cases hc1 : dy ≤ 2 * err <;> by_cases hc2 : 2 * err ≤ dx
      · -- both coordinates step
        have ha1 := hxstep hc1
        have hb1 := hystep hc2
        simp only [if_pos hc1, if_pos hc2]
        apply ih
        · rw [hstepa]; linarith
        · rw [hstepa]; linarith
        · rw [hstepb]; linarith
        · rw [hstepb]; linarith
        · rw [hstepa, hstepb, hinv]; ring
        · rw [hstepa, hstepb]; linarith
      · -- only `x` steps
        have ha1 := hxstep hc1
        simp only [if_pos hc1, if_neg hc2]
        apply ih
        · rw [hstepa]; linarith
        · rw [hstepa]; linarith
        · exact hb0
        · exact hbd
        · rw [hstepa, hinv]; ring
        · rw [hstepa]; linarith
      · -- only `y` steps
        have hb1 := hystep hc2
        simp only [if_neg hc1, if_pos hc2]
        apply ih
        · exact ha0
        · exact had
        · rw [hstepb]; linarith
        · rw [hstepb]; linarith
        · rw [hstepb, hinv]; ring
        · rw [hstepb]; linarith
      · rcases hor with h | h
        · exact absurd h hc1
        · exact absurd h hc2

/-- The embedded `draw_line` always completes: the fuel
`|x1-x0| + |y1-y0| + 1` suffices for the Bresenham loop to reach its
endpoint, for arbitrary integer arguments. -/
theorem draw_line_total (p : PixBuf) (x0 y0 x1 y1 : ℤ) (c : RGB) :
    ∃ q, draw_line p x0 y0 x1 y1 c = some q := by
  rw [← Option.isSome_iff_exists]
  simp only [draw_line]
  have hax : (if x0 < x1 then (1 : ℤ) else -1) * (x1 - x0) = |x1 - x0| := by
    rcases lt_or_ge x0 x1 with h | h
    · rw [if_pos h, one_mul, abs_of_nonneg (by omega)]
    · rw [if_neg (by omega), abs_of_nonpos (by omega)]; ring
  have hay : (if y0 < y1 then (1 : ℤ) else -1) * (y1 - y0) = |y1 - y0| := by
    rcases lt_or_ge y0 y1 with h | h
    · rw [if_pos h, one_mul, abs_of_nonneg (by omega)]
    · rw [if_neg (by omega), abs_of_nonpos (by omega)]; ring
  apply draw_line_go_isSome _ _ _ _ _ _ c (by split <;> simp) (by split <;> simp)
    (abs_nonneg _) (neg_nonpos.mpr (abs_nonneg _))
  · rw [hax]; exact abs_nonneg _
  · rw [hax]
  · rw [hay]; exact abs_nonneg _
  · rw [hay, neg_neg]
  · rw [hax, hay]; ring
  · rw [hax, hay, lineFuel, Int.abs_eq_natAbs, Int.abs_eq_natAbs]
    push_cast
    omega

/-- The layered base canvas satisfies the mask-implies-foreground
invariant: the fresh canvas has no lit pixel, the ground band touches
only the background, and every rain write sets mask and foreground
together. -/
theorem scene_base_maskFgOk (width height frame : ℕ) :
    MaskFgOk (scene_base width height frame) := by
  simp only [scene_base]
  apply foldl_preserves MaskFgOk
  · intro q x _ hq
    apply foldl_preserves MaskFgOk _ _ _ _ hq
    intro q2 y2 _ hq2
    dsimp only
    split
    · apply foldl_preserves MaskFgOk _ _ _ _ hq2
      intro q3 streak _ hq3
      dsimp only
      split
      · exact writeFg_maskFgOk _ _ _ _ hq3
      · exact hq3
    · exact hq2
  · apply foldl_preserves MaskFgOk
    · intro q y _ hq
      apply foldl_preserves MaskFgOk _ _ _ _ hq
      intro q2 x _ hq2
      exact writeBg_maskFgOk _ _ _ _ hq2
    · intro j i hji
      simp at hji

/-- Reflexivity of pointwise canvas agreement. -/
theorem PixEq_refl (p : PixBuf) (j i : ℤ) : PixEq p p j i := ⟨rfl, rfl, rfl⟩

/-- Writing to a pixel other than `(j, i)` preserves pointwise
agreement at `(j, i)`. -/
theorem PixEq_writeFg (p q : PixBuf) (j i x y : ℤ) (c : RGB)
    (h : ¬(j = y ∧ i = x)) (hq : PixEq p q j i) :
    PixEq p (writeFg q x y c) j i := by
  obtain ⟨h1, h2, h3⟩ := hq
  obtain ⟨g1, g2, g3⟩ := writeFg_untouched q x y c j i h
  exact ⟨g1.trans h1, g2.trans h2, g3.trans h3⟩

/-- `draw_rect` never writes outside the canvas: any out-of-bounds
pixel is left exactly as it was. -/
theorem draw_rect_oob (p : PixBuf) (x0 y0 x1 y1 : ℤ) (c : RGB)
    (j i : ℤ) (hout : OutOfBounds p j i) :
    PixEq p (draw_rect p x0 y0 x1 y1 c) j i := by
  apply foldl_preserves (fun q => PixEq p q j i)
  · intro q y hy hq
    rw [mem_intRange] at hy
    apply foldl_preserves (fun q2 => PixEq p q2 j i) _ _ _ _ hq
    intro q2 x hx hq2
    rw [mem_intRange] at hx
    apply PixEq_writeFg _ _ _ _ _ _ _ _ hq2
    rcases hout with h | h | h | h <;> intro hc <;> omega
  · exact PixEq_refl p j i

/-- `draw_ellipse` never writes outside the canvas: any out-of-bounds
pixel is left exactly as it was. -/
theorem draw_ellipse_oob (p : PixBuf) (cx cy rx ry : ℤ) (c : RGB)
    (j i : ℤ) (hout : OutOfBounds p j i) :
    PixEq p (draw_ellipse p cx cy rx ry c) j i := by
  apply foldl_preserves (fun q => q.hiW = p.hiW ∧ q.hiH = p.hiH ∧ PixEq p q j i)
    _ _ _ ?step ⟨rfl, rfl, PixEq_refl p j i⟩ |>.2.2
  intro q y _ hq
  obtain ⟨hqW, hqH, hqE⟩ := hq
  dsimp only
  split
  · rename_i hy
    apply foldl_preserves (fun q2 => q2.hiW = p.hiW ∧ q2.hiH = p.hiH ∧ PixEq p q2 j i)
      _ _ _ ?inner ⟨hqW, hqH, hqE⟩
    intro q2 x _ hq2
    obtain ⟨hq2W, hq2H, hq2E⟩ := hq2
    split
    · rename_i hx
      split
      · refine ⟨hq2W, hq2H, ?_⟩
        apply PixEq_writeFg _ _ _ _ _ _ _ _ hq2E
        rw [hq2W] at hx
        rw [hqH] at hy
        rcases hout with h | h | h | h <;> intro hc <;> omega
      · exact ⟨hq2W, hq2H, hq2E⟩
    · exact ⟨hq2W, hq2H, hq2E⟩
  · exact ⟨hqW, hqH, hqE⟩

/-- The Bresenham loop never writes outside the canvas. -/
theorem draw_line_go_oob (x1 y1 sx sy dx dy : ℤ) (c : RGB) (p0 : PixBuf)
    (j i : ℤ) (hout : OutOfBounds p0 j i) :
    ∀ (fuel : ℕ) (p : PixBuf) (x y err : ℤ) (q : PixBuf),
      p.hiW = p0.hiW → p.hiH = p0.hiH → PixEq p0 p j i →
      draw_line_go x1 y1 sx sy dx dy c fuel p x y err = some q →
      PixEq p0 q j i := by
  intro fuel
  induction fuel with
  | zero => intro p x y err q _ _ _ h; exact absurd h (by simp [draw_line_go])
  | succ n ih =>
    intro p x y err q hW hH hE h
    rw [draw_line_go] at h
    have hstep : ((if 0 ≤ x ∧ x < (p.hiW : ℤ) ∧ 0 ≤ y ∧ y < (p.hiH : ℤ)
        then writeFg p x y c else p)).hiW = p0.hiW ∧
        ((if 0 ≤ x ∧ x < (p.hiW : ℤ) ∧ 0 ≤ y ∧ y < (p.hiH : ℤ)
        then writeFg p x y c else p)).hiH = p0.hiH ∧
        PixEq p0 (if 0 ≤ x ∧ x < (p.hiW : ℤ) ∧ 0 ≤ y ∧ y < (p.hiH : ℤ)
        then writeFg p x y c else p) j i := by
      split
      · rename_i hin
        rw [hW, hH] at hin
        refine ⟨hW, hH, ?_⟩
        apply PixEq_writeFg _ _ _ _ _ _ _ _ hE
        rcases hout with hb | hb | hb | hb <;> intro hc <;> omega
      · exact ⟨hW, hH, hE⟩
    obtain ⟨sW, sH, sE⟩ := hstep
    by_cases hdone : x = x1 ∧ y = y1
    · rw [if_pos hdone] at h
      cases h
      exact sE
    · rw [if_neg hdone] at h
      exact ih _ _ _ _ _ sW sH sE h

/-- `draw_line` never writes outside the canvas: any out-of-bounds
pixel of a completed run is left exactly as it was. -/
theorem draw_line_oob (p : PixBuf) (x0 y0 x1 y1 : ℤ) (c : RGB)
    (j i : ℤ) (hout : OutOfBounds p j i) (q : PixBuf)
    (h : draw_line p x0 y0 x1 y1 c = some q) : PixEq p q j i := by
  simp only [draw_line] at h
  exact draw_line_go_oob _ _ _ _ _ _ c p j i hout _ p x0 y0 _ q rfl rfl
    (PixEq_refl p j i) h

/-- Chaining totality through `Option.bind`. -/
theorem bind_some {α β : Type} {o : Option α} {f : α → Option β}
    (ho : ∃ a, o = some a) (hf : ∀ a, ∃ b, f a = some b) :
    ∃ b, o.bind f = some b := by
  obtain ⟨a, rfl⟩ := ho
  simpa using hf a

/-- `draw_samurai` always completes (its two sword lines always reach
their endpoints). -/
theorem draw_samurai_total (p : PixBuf) (cx by2 scale : ℤ)
    (color highlight : RGB) (facing : ℤ) :
    ∃ q, draw_samurai p cx by2 scale color highlight facing = some q := by
  simp only [draw_samurai]
  exact bind_some (draw_line_total _ _ _ _ _ _) (fun a => draw_line_total _ _ _ _ _ _)

/-- The scene composition always completes, for any sine function and
any dimensions. -/
theorem compose_scene_total (s : ℕ → ℚ) (w h f : ℕ) :
    ∃ p, compose_scene s w h f = some p := by
  simp only [compose_scene]
  apply bind_some (draw_samurai_total _ _ _ _ _ _ _)
  intro p3
  apply bind_some (draw_samurai_total _ _ _ _ _ _ _)
  intro p4
  exact draw_line_total _ _ _ _ _ _

/-- One Bresenham iteration in the case "plot, not done, `x` steps,
`y` does not step". -/
theorem draw_line_go_step (x1 y1 sx sy dx dy : ℤ) (c : RGB) (fuel : ℕ)
    (p : PixBuf) (x y err : ℤ)
    (hin : 0 ≤ x ∧ x < (p.hiW : ℤ) ∧ 0 ≤ y ∧ y < (p.hiH : ℤ))
    (hnd : ¬(x = x1 ∧ y = y1)) (hc1 : dy ≤ 2 * err) (hc2 : ¬(2 * err ≤ dx)) :
    draw_line_go x1 y1 sx sy dx dy c (fuel + 1) p x y err =
      draw_line_go x1 y1 sx sy dx dy c fuel (writeFg p x y c) (x + sx) y (err + dy) := by
  rw [draw_line_go]
  simp only [if_pos hin, if_neg hnd, if_pos hc1, if_neg hc2]

/-- The final Bresenham iteration: plot the endpoint and stop. -/
theorem draw_line_go_done (x1 y1 sx sy dx dy : ℤ) (c : RGB) (fuel : ℕ)
    (p : PixBuf) (x y err : ℤ)
    (hin : 0 ≤ x ∧ x < (p.hiW : ℤ) ∧ 0 ≤ y ∧ y < (p.hiH : ℤ))
    (hdone : x = x1 ∧ y = y1) :
    draw_line_go x1 y1 sx sy dx dy c (fuel + 1) p x y err =
      some (writeFg p x y c) := by
  rw [draw_line_go]
  simp only [if_pos hin, if_pos hdone]

/-- The horizontal line `(0,0)–(5,0)` on a canvas at least 6 wide and
1 tall: the loop runs exactly six iterations, writing the six pixels
`(0,0) … (5,0)` in order. -/
theorem draw_line_h6 (p : PixBuf) (c : RGB) (hw : 6 ≤ p.hiW) (hh : 1 ≤ p.hiH) :
    draw_line p 0 0 5 0 c =
      some (writeFg (writeFg (writeFg (writeFg (writeFg (writeFg p 0 0 c)
        1 0 c) 2 0 c) 3 0 c) 4 0 c) 5 0 c) := by
  have h0 : draw_line p 0 0 5 0 c = draw_line_go 5 0 1 (-1) 5 0 c 6 p 0 0 5 := rfl
  rw [h0]
  rw [show (6 : ℕ) = 5 + 1 from rfl,
    draw_line_go_step 5 0 1 (-1) 5 0 c 5 p 0 0 5
      ⟨by omega, by omega, by omega, by omega⟩ (by omega) (by omega) (by omega)]
  norm_num
  rw [show (5 : ℕ) = 4 + 1 from rfl,
    draw_line_go_step 5 0 1 (-1) 5 0 c 4 _ 1 0 5
      ⟨by omega, by first | omega | (simp only [writeFg_hiW]; omega), by omega, by first | omega | (simp only [writeFg_hiH]; omega)⟩ (by omega) (by omega) (by omega)]
  norm_num
  rw [show (4 : ℕ) = 3 + 1 from rfl,
    draw_line_go_step 5 0 1 (-1) 5 0 c 3 _ 2 0 5
      ⟨by omega, by first | omega | (simp only [writeFg_hiW]; omega), by omega, by first | omega | (simp only [writeFg_hiH]; omega)⟩ (by omega) (by omega) (by omega)]
  norm_num
  rw [show (3 : ℕ) = 2 + 1 from rfl,
    draw_line_go_step 5 0 1 (-1) 5 0 c 2 _ 3 0 5
      ⟨by omega, by first | omega | (simp only [writeFg_hiW]; omega), by omega, by first | omega | (simp only [writeFg_hiH]; omega)⟩ (by omega) (by omega) (by omega)]
  norm_num
  rw [show (2 : ℕ) = 1 + 1 from rfl,
    draw_line_go_step 5 0 1 (-1) 5 0 c 1 _ 4 0 5
      ⟨by omega, by first | omega | (simp only [writeFg_hiW]; omega), by omega, by first | omega | (simp only [writeFg_hiH]; omega)⟩ (by omega) (by omega) (by omega)]
  norm_num
  rw [show (1 : ℕ) = 0 + 1 from rfl,
    draw_line_go_done 5 0 1 (-1) 5 0 c 0 _ 5 0 5
      ⟨by omega, by first | omega | (simp only [writeFg_hiW]; omega), by omega, by first | omega | (simp only [writeFg_hiH]; omega)⟩ (by omega)]

/-- The downsampling fold does not count any foreground sample when
every examined sub-position is unlit. -/
theorem dotfold_fgCount (p : PixBuf) (x y : ℕ) :
    ∀ (ds : List (ℕ × ℕ × ℕ)) (acc : DotAcc),
      (∀ d ∈ ds, p.mask ((y * 4 + d.2.1 : ℕ) : ℤ) ((x * 2 + d.1 : ℕ) : ℤ) = false) →
      (ds.foldl (dotStep p x y) acc).fgCount = acc.fgCount := by
  intro ds
  induction ds with
  | nil => intro acc _; rfl
  | cons d ds ih =>
    intro acc hall
    have hd := hall d (List.mem_cons_self d ds)
    have htail : ∀ d2 ∈ ds, p.mask ((y * 4 + d2.2.1 : ℕ) : ℤ)
        ((x * 2 + d2.1 : ℕ) : ℤ) = false :=
      fun d2 hd2 => hall d2 (List.mem_cons_of_mem d hd2)
    rw [List.foldl_cons, ih _ htail]
    simp only [dotStep]
    split
    · rfl
    · rw [hd]
      simp

/-- A cell all of whose sub-positions are unlit is the blank
background-only cell. -/
theorem cell_at_unlit (p : PixBuf) (x y : ℕ)
    (hm : ∀ d ∈ dot_map, p.mask ((y * 4 + d.2.1 : ℕ) : ℤ)
      ((x * 2 + d.1 : ℕ) : ℤ) = false) :
    (cell_at p x y).ch = ' ' ∧ (cell_at p x y).fg = none ∧
    (cell_at p x y).bg.isSome = true := by
  have h0 : (dot_map.foldl (dotStep p x y)
      ⟨0, ⟨0, 0, 0⟩, 0, ⟨0, 0, 0⟩, 0⟩).fgCount = 0 :=
    dotfold_fgCount p x y dot_map ⟨0, ⟨0, 0, 0⟩, 0, ⟨0, 0, 0⟩, 0⟩ hm
  refine ⟨?_, ?_, ?_⟩ <;>
    · simp only [cell_at]
      rw [if_neg (not_not.mpr h0)]
      all_goals rfl

/-- Indexing the downsampled frame at in-range coordinates gives the
corresponding `cell_at`. -/
theorem braille_getD (p : PixBuf) (w h x y : ℕ) (hx : x < w) (hy : y < h)
    (d : Cell) :
    ((braille_from_pixels p w h).getD y []).getD x d = cell_at p x y := by
  simp [braille_from_pixels, List.getD_eq_getElem?_getD, List.getElem?_map,
    List.getElem?_range, hx, hy]

/-- Each step of the downsampling fold keeps the accumulator sums
within `255 ×` their counts, provided the canvas channels are 8-bit. -/
theorem dotfold_accOk (p : PixBuf) (x y : ℕ)
    (hbg : ∀ j i : ℤ, 0 ≤ j → j < (p.hiH : ℤ) → 0 ≤ i → i < (p.hiW : ℤ) →
      InRange (p.bg j i))
    (hfg : ∀ (j i : ℤ) (c2 : RGB), 0 ≤ j → j < (p.hiH : ℤ) → 0 ≤ i →
      i < (p.hiW : ℤ) → p.fg j i = some c2 → InRange c2) :
    ∀ (ds : List (ℕ × ℕ × ℕ)) (acc : DotAcc),
      AccOk acc → AccOk (ds.foldl (dotStep p x y) acc) := by
  intro ds
  induction ds with
  | nil => intro acc h; exact h
  | cons d ds ih =>
    intro acc hacc
    rw [List.foldl_cons]
    apply ih
    simp only [dotStep]
    split
    · exact hacc
    · rename_i hin
      push_neg at hin
      obtain ⟨hinH, hinW⟩ := hin
      have hbr : InRange (p.bg ((y * 4 + d.2.1 : ℕ) : ℤ) ((x * 2 + d.1 : ℕ) : ℤ)) := by
        apply hbg <;> [positivity; skip; positivity; skip] <;>
          (push_cast; omega)
      obtain ⟨b1, b2, b3, b4, b5, b6⟩ := hbr
      obtain ⟨a1, a2, a3, a4, a5, a6, a7, a8, a9, a10, a11, a12, a13, a14⟩ := hacc
      split
      · rename_i hlit
        have hcr : InRange ((p.fg ((y * 4 + d.2.1 : ℕ) : ℤ)
            ((x * 2 + d.1 : ℕ) : ℤ)).getD
            (p.bg ((y * 4 + d.2.1 : ℕ) : ℤ) ((x * 2 + d.1 : ℕ) : ℤ))) := by
          rcases hpf : p.fg ((y * 4 + d.2.1 : ℕ) : ℤ) ((x * 2 + d.1 : ℕ) : ℤ)
            with _ | c2
          · simp only [Option.getD_none]
            exact ⟨b1, b2, b3, b4, b5, b6⟩
          · simp only [Option.getD_some]
            apply hfg _ _ c2 _ _ _ _ hpf <;> [positivity; skip; positivity; skip] <;>
              (push_cast; omega)
        obtain ⟨f1, f2, f3, f4, f5, f6⟩ := hcr
        refine ⟨?_, ?_, ?_, ?_, ?_, ?_, ?_, ?_, ?_, ?_, ?_, ?_, ?_, ?_⟩ <;>
          (dsimp only; omega)
      · refine ⟨?_, ?_, ?_, ?_, ?_, ?_, ?_, ?_, ?_, ?_, ?_, ?_, ?_, ?_⟩ <;>
          (dsimp only; omega)

/-- Non-negative floor-average of at most `255 ×` count stays 8-bit. -/
theorem fdiv_range (a n : ℤ) (h0 : 0 ≤ a) (hn : 0 < n) (h255 : a ≤ 255 * n) :
    0 ≤ a.fdiv n ∧ a.fdiv n ≤ 255 := by
  rw [Int.fdiv_eq_ediv _ (le_of_lt hn)]
  refine ⟨Int.ediv_nonneg h0 (le_of_lt hn), ?_⟩
  calc a / n ≤ (255 * n) / n := Int.ediv_le_ediv hn h255
    _ = 255 := Int.mul_ediv_cancel 255 (ne_of_gt hn)

/-- The cell produced by the downsampler at any coordinates has a
concrete 8-bit background and, when present, an 8-bit foreground. -/
theorem cell_at_range (p : PixBuf) (x y : ℕ)
    (hbg : ∀ j i : ℤ, 0 ≤ j → j < (p.hiH : ℤ) → 0 ≤ i → i < (p.hiW : ℤ) →
      InRange (p.bg j i))
    (hfg : ∀ (j i : ℤ) (c2 : RGB), 0 ≤ j → j < (p.hiH : ℤ) → 0 ≤ i →
      i < (p.hiW : ℤ) → p.fg j i = some c2 → InRange c2) :
    (∃ b, (cell_at p x y).bg = some b ∧ InRange b) ∧
    (∀ fc, (cell_at p x y).fg = some fc → InRange fc) := by
  have hacc : AccOk (dot_map.foldl (dotStep p x y) ⟨0, ⟨0, 0, 0⟩, 0, ⟨0, 0, 0⟩, 0⟩) :=
    dotfold_accOk p x y hbg hfg dot_map _
      ⟨le_refl 0, le_refl 0, le_refl 0, by norm_num, le_refl 0, by norm_num,
       le_refl 0, by norm_num, le_refl 0, by norm_num, le_refl 0, by norm_num,
       le_refl 0, by norm_num⟩
  obtain ⟨a1, a2, a3, a4, a5, a6, a7, a8, a9, a10, a11, a12, a13, a14⟩ := hacc
  simp only [cell_at]
  split
  · rename_i hfgc
    split
    · rename_i hbgc
      constructor
      · refine ⟨_, rfl, ?_, ?_, ?_, ?_, ?_, ?_⟩ <;>
          first
            | exact (fdiv_range _ _ a3 (by omega) a4).1
            | exact (fdiv_range _ _ a3 (by omega) a4).2
            | exact (fdiv_range _ _ a5 (by omega) a6).1
            | exact (fdiv_range _ _ a5 (by omega) a6).2
            | exact (fdiv_range _ _ a7 (by omega) a8).1
            | exact (fdiv_range _ _ a7 (by omega) a8).2
      · intro fc hfc
        rw [Option.some_inj] at hfc
        subst hfc
        refine ⟨?_, ?_, ?_, ?_, ?_, ?_⟩ <;>
          first
            | exact (fdiv_range _ _ a9 (by omega) a10).1
            | exact (fdiv_range _ _ a9 (by omega) a10).2
            | exact (fdiv_range _ _ a11 (by omega) a12).1
            | exact (fdiv_range _ _ a11 (by omega) a12).2
            | exact (fdiv_range _ _ a13 (by omega) a14).1
            | exact (fdiv_range _ _ a13 (by omega) a14).2
    · constructor
      · exact ⟨⟨0, 0, 0⟩, rfl, by norm_num, by norm_num, by norm_num, by norm_num,
          by norm_num, by norm_num⟩
      · intro fc hfc
        rw [Option.some_inj] at hfc
        subst hfc
        refine ⟨?_, ?_, ?_, ?_, ?_, ?_⟩ <;>
          first
            | exact (fdiv_range _ _ a9 (by omega) a10).1
            | exact (fdiv_range _ _ a9 (by omega) a10).2
            | exact (fdiv_range _ _ a11 (by omega) a12).1
            | exact (fdiv_range _ _ a11 (by omega) a12).2
            | exact (fdiv_range _ _ a13 (by omega) a14).1
            | exact (fdiv_range _ _ a13 (by omega) a14).2
  · split
    · refine ⟨⟨_, rfl, ?_, ?_, ?_, ?_, ?_, ?_⟩, ?_⟩ <;>
        first
          | exact (fdiv_range _ _ a3 (by omega) a4).1
          | exact (fdiv_range _ _ a3 (by omega) a4).2
          | exact (fdiv_range _ _ a5 (by omega) a6).1
          | exact (fdiv_range _ _ a5 (by omega) a6).2
          | exact (fdiv_range _ _ a7 (by omega) a8).1
          | exact (fdiv_range _ _ a7 (by omega) a8).2
          | (intro fc hfc; exact absurd hfc (by simp))
    · refine ⟨⟨⟨0, 0, 0⟩, rfl, by norm_num, by norm_num, by norm_num, by norm_num,
        by norm_num, by norm_num⟩, ?_⟩
      intro fc hfc
      exact absurd hfc (by simp)

/-! ## Claims -/

/-- **C1.** Determinism of the whole pipeline: two invocations of
`render_frame(build_frame(width, height, frame))` with identical
arguments (and the same fixed `math.sin` routine, modelled by `s`)
produce identical output; the pipeline is a pure function of its
inputs with no hidden state. -/
theorem pipeline_deterministic (s : ℕ → ℚ) (w h f w2 h2 f2 : ℕ)
    (hw : w = w2) (hh : h = h2) (hf : f = f2) :
    render_pipeline s w h f = render_pipeline s w2 h2 f2 := by
  subst hw; subst hh; subst hf; rfl

/-- Witness for C1 at `width = 1`, `height = 1`, `frame = 0`. -/
theorem pipeline_deterministic_witness :
    render_pipeline (fun _ => 0) 1 1 0 = render_pipeline (fun _ => 0) 1 1 0 :=
  pipeline_deterministic (fun _ => 0) 1 1 0 1 1 0 rfl rfl rfl

/-- **C3.** Serializer run-length coalescing: a nonempty row of cells
all sharing one concrete `(fg, bg)` pair serializes to exactly one
background-set escape, one foreground-set escape, the row's glyph
characters, and one trailing full reset — independent of the row
length. -/
theorem serializer_coalescing (row : List Cell) (f b : RGB)
    (hne : row ≠ []) (hall : ∀ c ∈ row, c.fg = some f ∧ c.bg = some b) :
    line_parts none none row =
      bg_color b :: fg_color f :: row.map (fun c => String.singleton c.ch) ∧
    render_row row =
      String.join ((bg_color b :: fg_color f ::
        row.map (fun c => String.singleton c.ch)) ++ [reset_colors]) := by
  match row with
  | [] => exact absurd rfl hne
  | c :: cs =>
    obtain ⟨hcf, hcb⟩ := hall c (List.mem_cons_self c cs)
    have htail : ∀ x ∈ cs, x.fg = some f ∧ x.bg = some b :=
      fun x hx => hall x (List.mem_cons_of_mem c hx)
    have hparts : line_parts none none (c :: cs) =
        bg_color b :: fg_color f ::
          (c :: cs).map (fun c => String.singleton c.ch) := by
      simp only [line_parts, hcf, hcb, List.map_cons]
      rw [if_neg (by simp), if_neg (by simp)]
      simp only [List.cons_append, List.singleton_append, List.nil_append]
      exact congrArg _ (congrArg _ (congrArg _ (line_parts_const f b cs htail)))
    exact ⟨hparts, by rw [render_row, hparts]⟩

/-- Witness for C3: a three-cell row sharing `(fg, bg) = ((1,2,3),(4,5,6))`. -/
theorem serializer_coalescing_witness :
    line_parts none none
        [⟨'a', some ⟨1, 2, 3⟩, some ⟨4, 5, 6⟩⟩,
         ⟨'b', some ⟨1, 2, 3⟩, some ⟨4, 5, 6⟩⟩,
         ⟨'c', some ⟨1, 2, 3⟩, some ⟨4, 5, 6⟩⟩] =
      bg_color ⟨4, 5, 6⟩ :: fg_color ⟨1, 2, 3⟩ ::
        ([⟨'a', some ⟨1, 2, 3⟩, some ⟨4, 5, 6⟩⟩,
          ⟨'b', some ⟨1, 2, 3⟩, some ⟨4, 5, 6⟩⟩,
          ⟨'c', some ⟨1, 2, 3⟩, some ⟨4, 5, 6⟩⟩] : List Cell).map
          (fun c => String.singleton c.ch) :=
  (serializer_coalescing _ ⟨1, 2, 3⟩ ⟨4, 5, 6⟩ (by simp) (by decide)).1

/-- **C5.** Gradient exactness at high-resolution height 3: row 0 is the
top color `(15, 20, 35)`, row 2 the bottom color `(5, 10, 18)`, and
row 1 is `(10, 15, 26)`, the component-wise integer-truncated average
of top and bottom. -/
theorem gradient_height3_exact :
    gradient_color 0 3 = ⟨15, 20, 35⟩ ∧
    gradient_color 1 3 = ⟨10, 15, 26⟩ ∧
    gradient_color 2 3 = ⟨5, 10, 18⟩ := by
  refine ⟨?_, ?_, ?_⟩ <;>
    · simp only [gradient_color, lerp, pyInt, RGB.mk.injEq]
      norm_num

/-- **C6.** Bounds safety of the primitives: for every canvas and
arbitrary integer coordinate arguments (including far out-of-range and
negative values), `draw_rect`, `draw_ellipse` and `draw_line` leave
every out-of-bounds pixel exactly as it was — out-of-bounds writes are
silently skipped, and every access the primitives perform is guarded
to the canvas rectangle, so none faults. -/
theorem primitives_bounds_safe (p : PixBuf) (j i : ℤ)
    (hout : OutOfBounds p j i)
    (rx0 ry0 rx1 ry1 cx cy rrx rry lx0 ly0 lx1 ly1 : ℤ) (c1 c2 c3 : RGB) :
    PixEq p (draw_rect p rx0 ry0 rx1 ry1 c1) j i ∧
    PixEq p (draw_ellipse p cx cy rrx rry c2) j i ∧
    ∀ q, draw_line p lx0 ly0 lx1 ly1 c3 = some q → PixEq p q j i :=
  ⟨draw_rect_oob p rx0 ry0 rx1 ry1 c1 j i hout,
   draw_ellipse_oob p cx cy rrx rry c2 j i hout,
   fun q hq => draw_line_oob p lx0 ly0 lx1 ly1 c3 j i hout q hq⟩

/-- Witness for C6: pixel `(0, 5)` lies right of a 3×2 canvas and is
untouched by a rectangle fill. -/
theorem primitives_bounds_safe_witness :
    PixEq (testBuf 3 2) (draw_rect (testBuf 3 2) 0 0 2 2 ⟨1, 2, 3⟩) 0 5 :=
  (primitives_bounds_safe (testBuf 3 2) 0 5 (by simp [OutOfBounds, testBuf])
    0 0 2 2 1 1 1 1 0 0 2 1 ⟨1, 2, 3⟩ ⟨1, 2, 3⟩ ⟨1, 2, 3⟩).1

/-- **C8.** Canvas mask/foreground invariant: the freshly layered
canvas (gradient, ground, rain) satisfies "mask lit implies concrete
foreground", every primitive preserves it, and the fully composed scene
satisfies it — so the downsampler's fallback to the background color
for a masked pixel without foreground is never exercised by the
composed scene. -/
theorem scene_mask_implies_fg :
    (∀ w h f : ℕ, MaskFgOk (scene_base w h f)) ∧
    (∀ p x0 y0 x1 y1 c, MaskFgOk p → MaskFgOk (draw_rect p x0 y0 x1 y1 c)) ∧
    (∀ p cx cy rx ry c, MaskFgOk p → MaskFgOk (draw_ellipse p cx cy rx ry c)) ∧
    (∀ p x0 y0 x1 y1 c q, MaskFgOk p →
      draw_line p x0 y0 x1 y1 c = some q → MaskFgOk q) ∧
    (∀ (s : ℕ → ℚ) (w h f : ℕ) (p : PixBuf),
      compose_scene s w h f = some p → MaskFgOk p) := by
  refine ⟨scene_base_maskFgOk, draw_rect_maskFgOk, draw_ellipse_maskFgOk,
    draw_line_maskFgOk, ?_⟩
  intro s w h f p hcs
  simp only [compose_scene, Option.bind_eq_some] at hcs
  obtain ⟨p3, h3, p4, h4, h5⟩ := hcs
  exact draw_line_maskFgOk _ _ _ _ _ _ _
    (draw_samurai_maskFgOk _ _ _ _ _ _ _ _
      (draw_samurai_maskFgOk _ _ _ _ _ _ _ _
        (scene_base_maskFgOk w h f) h3) h4) h5

/-- **C7 (counterexample).** The claim states the shimmer value mixed
into the right figure's color to be `int(30 + amplitude*sin(frame /
period))` for some fixed constants.  No choice of amplitude, period and
sine routine (with `sin 0 = 0`, true of both real sine and `math.sin`)
matches the code, which computes `int(40 + 30*sin(frame / 8))`: at
`frame = 0` the code yields 40 while the claimed formula yields 30. -/
theorem shimmer_spec_formula_refuted :
    ¬ ∃ (amp period : ℚ) (sinq : ℚ → ℚ), sinq 0 = 0 ∧
      ∀ f : ℕ, (right_samurai_color (fun n => sinq ((n : ℚ) / 8)) f).b =
        pyInt (30 + amp * sinq ((f : ℚ) / period)) := by
  rintro ⟨amp, period, sinq, h0, hall⟩
  have h := hall 0
  have hz : ((0 : ℕ) : ℚ) / 8 = 0 := by norm_num
  have hz2 : ((0 : ℕ) : ℚ) / period = 0 := by
    simp
  rw [right_samurai_color] at h
  simp only [shimmer, hz, hz2, h0] at h
  norm_num [pyInt] at h

/-- **C7 (amended).** The time-varying shimmer channel value that the
scene composer mixes into the second (right) figure's color equals
`int(40 + 30*sin(frame / 8))`: constant offset 40, amplitude 30,
period 8, for every frame index. -/
theorem shimmer_code_formula (sinq : ℚ → ℚ) (f : ℕ) :
    (right_samurai_color (fun n => sinq ((n : ℚ) / 8)) f).b =
      pyInt (40 + 30 * sinq ((f : ℚ) / 8)) := rfl

/-- **C4.** Line completeness: on a canvas of width ≥ 6 and height ≥ 1
with an all-false mask, `draw_line` from `(0,0)` to `(5,0)` lights
exactly the six pixels `(x, 0)` for `x = 0 … 5` (setting their
foreground to the line color) and changes no other pixel; and the loop
needs exactly six iterations (with fuel 5 — one iteration per pixel
minus one — it fails), so each pixel is visited exactly once. -/
theorem draw_line_horizontal_exact (p : PixBuf) (c : RGB)
    (hw : 6 ≤ p.hiW) (hh : 1 ≤ p.hiH)
    (hmask : ∀ j i : ℤ, p.mask j i = false) :
    (∀ q, draw_line p 0 0 5 0 c = some q →
      ∀ j i : ℤ,
        (q.mask j i = true ↔ j = 0 ∧ 0 ≤ i ∧ i ≤ 5) ∧
        q.fg j i = (if j = 0 ∧ 0 ≤ i ∧ i ≤ 5 then some c else p.fg j i) ∧
        q.bg j i = p.bg j i) ∧
    draw_line_go 5 0 1 (-1) 5 0 c 5 p 0 0 5 = none := by
  constructor
  · intro q hq j i
    rw [draw_line_h6 p c hw hh] at hq
    cases hq
    refine ⟨?_, ?_, ?_⟩
    · simp only [writeFg]
      rw [hmask]
      split_ifs with h1 h2 h3 h4 h5 h6 <;> simp <;> omega
    · simp only [writeFg]
      split_ifs with h1 h2 h3 h4 h5 h6 h7 <;> first | rfl | (exfalso; omega)
    · rfl
  · rw [show (5 : ℕ) = 4 + 1 from rfl,
      draw_line_go_step 5 0 1 (-1) 5 0 c 4 p 0 0 5
        ⟨by omega, by omega, by omega, by omega⟩ (by omega) (by omega) (by omega)]
    norm_num
    rw [show (4 : ℕ) = 3 + 1 from rfl,
      draw_line_go_step 5 0 1 (-1) 5 0 c 3 _ 1 0 5
        ⟨by omega, by first | omega | (simp only [writeFg_hiW]; omega), by omega,
          by first | omega | (simp only [writeFg_hiH]; omega)⟩
        (by omega) (by omega) (by omega)]
    norm_num
    rw [show (3 : ℕ) = 2 + 1 from rfl,
      draw_line_go_step 5 0 1 (-1) 5 0 c 2 _ 2 0 5
        ⟨by omega, by first | omega | (simp only [writeFg_hiW]; omega), by omega,
          by first | omega | (simp only [writeFg_hiH]; omega)⟩
        (by omega) (by omega) (by omega)]
    norm_num
    rw [show (2 : ℕ) = 1 + 1 from rfl,
      draw_line_go_step 5 0 1 (-1) 5 0 c 1 _ 3 0 5
        ⟨by omega, by first | omega | (simp only [writeFg_hiW]; omega), by omega,
          by first | omega | (simp only [writeFg_hiH]; omega)⟩
        (by omega) (by omega) (by omega)]
    norm_num
    rw [show (1 : ℕ) = 0 + 1 from rfl,
      draw_line_go_step 5 0 1 (-1) 5 0 c 0 _ 4 0 5
        ⟨by omega, by first | omega | (simp only [writeFg_hiW]; omega), by omega,
          by first | omega | (simp only [writeFg_hiH]; omega)⟩
        (by omega) (by omega) (by omega)]
    rfl

/-- Witness for C4: on a 12×4 canvas (hypotheses hold) the loop with
fuel 5 indeed fails, so it takes exactly six iterations. -/
theorem draw_line_horizontal_exact_witness :
    draw_line_go 5 0 1 (-1) 5 0 ⟨9, 9, 9⟩ 5 (testBuf 12 4) 0 0 5 = none :=
  (draw_line_horizontal_exact (testBuf 12 4) ⟨9, 9, 9⟩
    (by norm_num [testBuf]) (by norm_num [testBuf]) (fun _ _ => rfl)).2

/-- **C9.** Totality for all positive sizes: for every
`frame_index ≥ 0`, `width ≥ 1`, `height ≥ 1` (including 1×1),
`build_frame` completes — in particular every Bresenham loop inside
the scene reaches its endpoint within its fuel — and returns a frame
of exactly `height` rows, each of exactly `width` cells. -/
theorem build_frame_total (s : ℕ → ℚ) (w h f : ℕ) (hw : 1 ≤ w) (hh : 1 ≤ h) :
    ∃ fr, build_frame s w h f = some fr ∧ fr.length = h ∧
      ∀ row ∈ fr, row.length = w := by
  obtain ⟨p, hp⟩ := compose_scene_total s w h f
  refine ⟨braille_from_pixels p w h, ?_, ?_, ?_⟩
  · simp [build_frame, hp]
  · simp [braille_from_pixels]
  · intro row hrow
    simp only [braille_from_pixels, List.mem_map] at hrow
    obtain ⟨y, _, rfl⟩ := hrow
    simp

/-- Witness for C9 at the degenerate 1×1 terminal size. -/
theorem build_frame_total_witness :
    (build_frame (fun _ => 0) 1 1 0).isSome = true := by
  obtain ⟨fr, hfr, _⟩ := build_frame_total (fun _ => 0) 1 1 0 (le_refl 1) (le_refl 1)
  simp [hfr]

/-- **C2.** Downsampler glyph selection: on a full-size canvas
(`2w × 4h`) whose only lit pixel is sub-position `(dx=0, dy=0)` of
block `(0,0)`, cell `(0,0)` gets the glyph with codepoint `0x2801`
(braille base `0x2800` plus bit 0) with that pixel's foreground color
as the cell foreground, and every other cell gets the blank space
glyph with no foreground (background-only). -/
theorem downsample_glyph_selection (p : PixBuf) (w h : ℕ) (c : RGB)
    (hw : 1 ≤ w) (hh : 1 ≤ h) (hW : p.hiW = 2 * w) (hH : p.hiH = 4 * h)
    (hm : ∀ j i : ℤ, p.mask j i = true ↔ j = 0 ∧ i = 0)
    (hc : p.fg 0 0 = some c) :
    (((braille_from_pixels p w h).getD 0 []).getD 0 blankCell).ch =
      Char.ofNat 0x2801 ∧
    (((braille_from_pixels p w h).getD 0 []).getD 0 blankCell).fg = some c ∧
    ∀ x y : ℕ, x < w → y < h → ¬(x = 0 ∧ y = 0) →
      (((braille_from_pixels p w h).getD y []).getD x blankCell).ch = ' ' ∧
      (((braille_from_pixels p w h).getD y []).getD x blankCell).fg = none ∧
      (((braille_from_pixels p w h).getD y []).getD x blankCell).bg.isSome
        = true := by
  have hmaskd : ∀ j i : ℤ, ¬(j = 0 ∧ i = 0) → p.mask j i = false := by
    intro j i hji
    rcases hb : p.mask j i with _ | _
    · rfl
    · exact absurd ((hm j i).mp hb) hji
  have hcell : (cell_at p 0 0).ch = Char.ofNat 0x2801 ∧
      (cell_at p 0 0).fg = some c := by
    have hmask00 : p.mask 0 0 = true := (hm 0 0).mpr ⟨rfl, rfl⟩
    have hgH : ∀ py : ℕ, py ≤ 3 → (p.hiH ≤ py) = False :=
      fun py hpy => eq_false (by omega)
    have hgW : ∀ px : ℕ, px ≤ 1 → (p.hiW ≤ px) = False :=
      fun px hpx => eq_false (by omega)
    have hm10 : p.mask 1 0 = false := hmaskd 1 0 (by omega)
    have hm20 : p.mask 2 0 = false := hmaskd 2 0 (by omega)
    have hm30 : p.mask 3 0 = false := hmaskd 3 0 (by omega)
    have hm01 : p.mask 0 1 = false := hmaskd 0 1 (by omega)
    have hm11 : p.mask 1 1 = false := hmaskd 1 1 (by omega)
    have hm21 : p.mask 2 1 = false := hmaskd 2 1 (by omega)
    have hm31 : p.mask 3 1 = false := hmaskd 3 1 (by omega)
    refine ⟨?_, ?_⟩ <;>
      simp [cell_at, dot_map, dotStep, hgH, hgW, hmask00, hm10, hm20, hm30,
        hm01, hm11, hm21, hm31, hc]
  rw [braille_getD p w h 0 0 hw hh blankCell]
  refine ⟨hcell.1, hcell.2, ?_⟩
  intro x y hx hy hxy
  rw [braille_getD p w h x y hx hy blankCell]
  apply cell_at_unlit
  intro d2 hd2
  apply hmaskd
  have hb2 : d2.1 ≤ 1 ∧ d2.2.1 ≤ 3 := by fin_cases hd2 <;> simp
  intro hcon
  obtain ⟨h1, h2⟩ := hcon
  omega

/-- Witness for C2: on the concrete canvas `c2Buf` (4×4, one lit
pixel), cell `(0,0)` is the `0x2801` glyph and cell `(1,0)` is blank. -/
theorem downsample_glyph_selection_witness :
    (((braille_from_pixels c2Buf 2 1).getD 0 []).getD 0 blankCell).ch =
      Char.ofNat 0x2801 ∧
    (((braille_from_pixels c2Buf 2 1).getD 0 []).getD 1 blankCell).ch = ' ' := by
  have h := downsample_glyph_selection c2Buf 2 1 ⟨1, 2, 3⟩ (by norm_num)
    (by norm_num) rfl rfl (by intro j i; simp [c2Buf]) rfl
  exact ⟨h.1, (h.2.2 1 0 (by norm_num) (by norm_num) (by simp)).1⟩

/-- **C10.** Downsampler output invariant: if every channel of the
canvas's background array, and of every present foreground entry, lies
in `0 … 255`, then every cell the downsampler produces has a concrete
background with 8-bit channels and, whenever its foreground is
present, an 8-bit foreground — the truncated averaging never leaves
the channel range and never produces an absent background. -/
theorem downsample_channels_in_range (p : PixBuf)
    (hbg : ∀ j i : ℤ, 0 ≤ j → j < (p.hiH : ℤ) → 0 ≤ i → i < (p.hiW : ℤ) →
      InRange (p.bg j i))
    (hfg : ∀ (j i : ℤ) (c2 : RGB), 0 ≤ j → j < (p.hiH : ℤ) → 0 ≤ i →
      i < (p.hiW : ℤ) → p.fg j i = some c2 → InRange c2)
    (w h : ℕ) :
    ∀ row ∈ braille_from_pixels p w h, ∀ cell ∈ row,
      (∃ b, cell.bg = some b ∧ InRange b) ∧
      (∀ fc, cell.fg = some fc → InRange fc) := by
  intro row hrow cell hcell
  simp only [braille_from_pixels, List.mem_map] at hrow
  obtain ⟨y, _, rfl⟩ := hrow
  simp only [List.mem_map] at hcell
  obtain ⟨x, _, rfl⟩ := hcell
  exact cell_at_range p x y hbg hfg

/-- Witness for C10 on the all-clear 2×4 canvas. -/
theorem downsample_channels_in_range_witness :
    (∃ b, (cell_at (testBuf 2 4) 0 0).bg = some b ∧ InRange b) ∧
    (∀ fc, (cell_at (testBuf 2 4) 0 0).fg = some fc → InRange fc) :=
  downsample_channels_in_range (testBuf 2 4)
    (by intro j i _ _ _ _
        exact ⟨by norm_num [testBuf], by norm_num [testBuf], by norm_num [testBuf],
          by norm_num [testBuf], by norm_num [testBuf], by norm_num [testBuf]⟩)
    (by intro j i c2 _ _ _ _ heq
        exact absurd heq (by simp [testBuf]))
    1 1 [cell_at (testBuf 2 4) 0 0]
    (by rw [show braille_from_pixels (testBuf 2 4) 1 1 =
          [[cell_at (testBuf 2 4) 0 0]] from rfl]
        exact List.mem_singleton.mpr rfl)
    (cell_at (testBuf 2 4) 0 0) (List.mem_singleton.mpr rfl)

end TuiMovie
